import Mathlib

/-!
Shallow embedding of `oz-merkle-rs` (`src/lib.rs`): a Merkle tree over
`(address, amount)` records with keccak256 leaf and pair hashing, sorted
deduplicated leaves, proof extraction and standalone proof verification.

The hash function `keccak256` is kept abstract (a parameter of every
definition that hashes): none of the verified properties depend on the
internals of Keccak-256, only on its interface `bytes → 32-byte value`.
-/

namespace OzMerkle

/-- A byte is a natural number below 256. -/
abbrev Byte := Nat

/-- A `Hash` models an `H256`: a 32-byte value, represented as the natural
number whose 32-byte big-endian encoding is those bytes.  The byte-wise
lexicographic order used by `H256`'s `Ord` agrees with the numeric order on
these naturals (`toBE_le_iff` below), so `H256` comparisons are modelled by
`Nat` comparisons. -/
abbrev Hash := Nat

/-- Big-endian fixed-width byte encoding of a natural: models
`U256::to_big_endian` (width 32) and an `Address`'s raw bytes (width 20). -/
def toBE : Nat → Nat → List Byte
  | 0, _ => []
  | w + 1, n => n / 256 ^ w % 256 :: toBE w n

/-- Models `self.elements.iter().position(|&e| e == element)`. -/
def position : List Hash → Hash → Option Nat
  | [], _ => none
  | a :: rest, x => if a = x then some 0 else (position rest x).map (· + 1)

/-- Models `Vec::dedup`: removes consecutive duplicate elements. -/
def dedup : List Hash → List Hash
  | [] => []
  | [a] => [a]
  | a :: b :: rest => if a = b then dedup (b :: rest) else a :: dedup (b :: rest)

/-- Models `elements.sort(); elements.dedup();` in `MerkleTree::new`. -/
def sortDedup (l : List Hash) : List Hash := dedup (List.insertionSort (· ≤ ·) l)

/-- Models the `for layer in &self.layers[..self.layers.len() - 1]` loop of
`MerkleTree::get_proof`: at each layer the sibling index is `index + 1` for
even `index` and `index - 1` for odd `index`; the sibling is recorded only
when it is in bounds, and `index` moves to `index / 2` for the next layer. -/
def proofLoop : List (List Hash) → Nat → List Hash
  | [], _ => []
  | layer :: rest, index =>
    (if (if index % 2 = 0 then index + 1 else index - 1) < layer.length
      then [layer.getD (if index % 2 = 0 then index + 1 else index - 1) 0]
      else []) ++ proofLoop rest (index / 2)

/-- The `MerkleTree` struct: canonical leaf hashes, the layer stack, and the
leaf count. -/
structure MerkleTree where
  elements : List Hash
  layers : List (List Hash)
  leaves : Nat

section

variable (keccak256 : List Byte → Hash)

/-- Models `MerkleTree::hash_pair`: sort the two 32-byte values, concatenate
their bytes smaller-first, and hash.  `[a, b].sort()` keeps the order when
`a ≤ b` and swaps otherwise. -/
def hash_pair (a b : Hash) : Hash :=
  keccak256 (toBE 32 (if a ≤ b then a else b) ++ toBE 32 (if a ≤ b then b else a))

/-- Models `MerkleTree::hash_node`: build the byte vector by appending the
32-byte big-endian index, the 20 raw account bytes, and the 32-byte
big-endian amount, then hash it. -/
def hash_node (index : Nat) (leaf_data : Nat × Nat) : Hash :=
  let bytes : List Byte := []
  let bytes := bytes ++ toBE 32 index
  let bytes := bytes ++ toBE 20 leaf_data.1
  let bytes := bytes ++ toBE 32 leaf_data.2
  keccak256 bytes

/-- Models `MerkleTree::next_layer`: `chunks(2)`, hashing each full pair and
passing a trailing single element through unchanged. -/
def nextLayer : List Hash → List Hash
  | [] => []
  | [a] => [a]
  | a :: b :: rest => hash_pair keccak256 a b :: nextLayer rest

/-- Fuelled form of the `while layers.last().unwrap().len() > 1` loop of
`MerkleTree::new`.  Each iteration strictly shrinks the layer length, so
fuel `l.length` is always sufficient (`buildLayers_eq` below recovers the
loop's recurrence exactly). -/
def buildLayersAux : Nat → List Hash → List (List Hash)
  | 0, l => [l]
  | fuel + 1, l =>
    if l.length > 1 then l :: buildLayersAux fuel (nextLayer keccak256 l) else [l]

/-- The layer stack built by `MerkleTree::new`: starts at the leaf layer and
repeats `next_layer` while the top layer has more than one element. -/
def buildLayers (l : List Hash) : List (List Hash) := buildLayersAux keccak256 l.length l

/-- Models `MerkleTree::new`: hash each record with its enumeration index,
sort, dedup, and build the layer stack. -/
def new (data : List (Nat × Nat)) : MerkleTree :=
  let elements := sortDedup (data.enum.map fun p => hash_node keccak256 p.1 p.2)
  { elements := elements
    layers := buildLayers keccak256 elements
    leaves := elements.length }

/-- The list of leaf hashes derived from the input records in
`MerkleTree::new`, before sorting and deduplication: each record is hashed
together with its enumeration index. -/
def leafHashes (data : List (Nat × Nat)) : List Hash :=
  data.enum.map fun p => hash_node keccak256 p.1 p.2

/-- The root obtained by running the construction pipeline of
`MerkleTree::new` followed by `MerkleTree::get_root` on a given list of leaf
hashes. -/
def rootOfLeaves (leaves : List Hash) : Option Hash :=
  (buildLayers keccak256 (sortDedup leaves)).getLast?.bind List.head?

/-- Models `MerkleTree::verify_proof`: fold the proof into the leaf hash,
ordering each pair before hashing, and compare with the claimed root.  The
receiver is unused, exactly as `&self` is unused in the source. -/
def verify_proof (_self : MerkleTree) (element : Hash) (proof : List Hash) (root : Hash) : Bool :=
  (proof.foldl
    (fun computed_hash proof_element =>
      if computed_hash < proof_element then hash_pair keccak256 computed_hash proof_element
      else hash_pair keccak256 proof_element computed_hash)
    element) == root

end

/-- Models `MerkleTree::get_root`:
`self.layers.last().and_then(|l| l.first().cloned())`. -/
def get_root (t : MerkleTree) : Option Hash := t.layers.getLast?.bind List.head?

/-- Models `MerkleTree::get_proof`: locate the element in the canonical leaf
order (`None` when absent) and collect the sibling path. -/
def get_proof (t : MerkleTree) (element : Hash) : Option (List Hash) :=
  (position t.elements element).map fun index => proofLoop t.layers.dropLast index

/-- Models `MerkleTree::leaves_length`. -/
def leaves_length (t : MerkleTree) : Nat := t.leaves

/-- A concrete stand-in hash function used to evaluate the development on
explicit inputs: a 32-byte-valued function of the byte list. -/
def kc (l : List Byte) : Hash := l.foldl (fun a b => (a * 257 + b + 1) % (2 ^ 255 - 19)) 1

/-! ### Supporting lemmas -/

theorem hash_pair_comm (k : List Byte → Hash) (a b : Hash) :
    hash_pair k a b = hash_pair k b a := by
  unfold hash_pair
  rcases le_or_lt a b with h | h
  · rcases eq_or_lt_of_le h with rfl | hlt
    · rfl
    · rw [if_pos h, if_pos h, if_neg (not_le.2 hlt), if_neg (not_le.2 hlt)]
  · rw [if_neg (not_le.2 h), if_neg (not_le.2 h), if_pos h.le, if_pos h.le]

theorem verify_step_eq (k : List Byte → Hash) (acc p : Hash) :
    (if acc < p then hash_pair k acc p else hash_pair k p acc) = hash_pair k acc p := by
  by_cases h : acc < p
  · rw [if_pos h]
  · rw [if_neg h, hash_pair_comm]

theorem verify_fold_eq (k : List Byte → Hash) (ps : List Hash) (a : Hash) :
    ps.foldl (fun c pe => if c < pe then hash_pair k c pe else hash_pair k pe c) a
      = ps.foldl (fun c pe => hash_pair k c pe) a := by
  have hf : (fun c pe => if c < pe then hash_pair k c pe else hash_pair k pe c)
      = fun c pe => hash_pair k c pe := by
    funext c pe
    exact verify_step_eq k c pe
  rw [hf]

theorem nextLayer_length (k : List Byte → Hash) :
    ∀ l : List Hash, (nextLayer k l).length = (l.length + 1) / 2
  | [] => rfl
  | [_] => by simp [nextLayer]
  | _ :: _ :: rest => by
    simp only [nextLayer, List.length_cons, nextLayer_length k rest]
    omega

theorem nextLayer_getD (k : List Byte → Hash) :
    ∀ (l : List Hash) (j : Nat), 2 * j < l.length →
      (nextLayer k l).getD j 0 =
        if 2 * j + 1 < l.length then hash_pair k (l.getD (2 * j) 0) (l.getD (2 * j + 1) 0)
        else l.getD (2 * j) 0
  | [], j, h => by simp at h
  | [a], j, h => by
    have hj : j = 0 := by simp only [List.length_singleton] at h; omega
    subst hj
    simp [nextLayer]
  | a :: b :: rest, 0, _ => by
    have hpos : 2 * 0 + 1 < (a :: b :: rest).length := by
      simp only [List.length_cons]; omega
    rw [if_pos hpos]
    rfl
  | a :: b :: rest, j + 1, h => by
    have h' : 2 * j < rest.length := by
      simp only [List.length_cons] at h; omega
    have ih := nextLayer_getD k rest j h'
    have e2 : 2 * (j + 1) = 2 * j + 1 + 1 := by ring
    have e3 : 2 * (j + 1) + 1 = 2 * j + 1 + 1 + 1 := by ring
    have hc : (2 * j + 1 + 1 + 1 < (a :: b :: rest).length) ↔ (2 * j + 1 < rest.length) := by
      simp only [List.length_cons]; omega
    simp only [nextLayer, e2, e3, hc, List.getD_cons_succ, ih]


theorem buildLayersAux_congr (k : List Byte → Hash) :
    ∀ (f1 f2 : Nat) (l : List Hash), l.length ≤ f1 → l.length ≤ f2 →
      buildLayersAux k f1 l = buildLayersAux k f2 l
  | 0, f2, l, h1, _ => by
    have hl : l = [] := List.eq_nil_of_length_eq_zero (by omega)
    subst hl
    cases f2 <;> simp [buildLayersAux]
  | f1 + 1, 0, l, _, h2 => by
    have hl : l = [] := List.eq_nil_of_length_eq_zero (by omega)
    subst hl
    simp [buildLayersAux]
  | f1 + 1, f2 + 1, l, h1, h2 => by
    simp only [buildLayersAux]
    by_cases h : l.length > 1
    · rw [if_pos h, if_pos h,
        buildLayersAux_congr k f1 f2 (nextLayer k l)
          (by rw [nextLayer_length]; omega) (by rw [nextLayer_length]; omega)]
    · rw [if_neg h, if_neg h]

/-- The `while` loop recurrence satisfied by `buildLayers`. -/
theorem buildLayers_eq (k : List Byte → Hash) (l : List Hash) :
    buildLayers k l = if l.length > 1 then l :: buildLayers k (nextLayer k l) else [l] := by
  unfold buildLayers
  by_cases h : l.length > 1
  · rw [if_pos h]
    obtain ⟨m, hm⟩ : ∃ m, l.length = m + 1 := ⟨l.length - 1, by omega⟩
    rw [hm]
    simp only [buildLayersAux]
    rw [if_pos h,
      buildLayersAux_congr k m (nextLayer k l).length (nextLayer k l)
        (by rw [nextLayer_length]; omega) (le_refl _)]
  · rw [if_neg h]
    match l, h with
    | [], _ => rfl
    | [a], _ => simp [buildLayersAux]
    | a :: b :: rest, h => simp at h

theorem buildLayers_ne_nil (k : List Byte → Hash) (l : List Hash) :
    buildLayers k l ≠ [] := by
  rw [buildLayers_eq]
  split <;> simp

/-- One verification step absorbs exactly the sibling recorded at one layer:
folding the (zero or one) recorded sibling hashes into the element at
position `i` of a layer yields the element at position `i / 2` of the next
layer. -/
theorem fold_sib_step (k : List Byte → Hash) (l : List Hash) (i : Nat) (hi : i < l.length) :
    List.foldl (fun acc p => hash_pair k acc p) (l.getD i 0)
      (if (if i % 2 = 0 then i + 1 else i - 1) < l.length
        then [l.getD (if i % 2 = 0 then i + 1 else i - 1) 0] else [])
      = (nextLayer k l).getD (i / 2) 0 := by
  have h2 : 2 * (i / 2) < l.length := by omega
  rw [nextLayer_getD k l (i / 2) h2]
  by_cases he : i % 2 = 0
  · have hi2 : 2 * (i / 2) = i := by omega
    rw [if_pos he, hi2]
    by_cases hs : i + 1 < l.length
    · rw [if_pos hs, if_pos hs]
      simp [List.foldl]
    · rw [if_neg hs, if_neg hs]
      simp [List.foldl]
  · have hi2 : 2 * (i / 2) = i - 1 := by omega
    have hs : i - 1 < l.length := by omega
    rw [if_neg he, hi2, show i - 1 + 1 = i from by omega, if_pos hs, if_pos hi]
    simp only [List.foldl]
    exact hash_pair_comm k _ _

/-- Walking the whole layer stack: starting from any leaf position, folding
the recorded sibling path reaches the single element of the top layer. -/
theorem buildLayers_spine (k : List Byte → Hash) (l : List Hash) (i : Nat) (hi : i < l.length) :
    ∃ r, (buildLayers k l).getLast? = some [r] ∧
      List.foldl (fun acc p => hash_pair k acc p) (l.getD i 0)
        (proofLoop (buildLayers k l).dropLast i) = r := by
  rw [buildLayers_eq]
  by_cases h : l.length > 1
  · rw [if_pos h]
    have hnext : i / 2 < (nextLayer k l).length := by rw [nextLayer_length]; omega
    obtain ⟨r, hlast, hfold⟩ := buildLayers_spine k (nextLayer k l) (i / 2) hnext
    obtain ⟨L0, Ls, hL⟩ : ∃ L0 Ls, buildLayers k (nextLayer k l) = L0 :: Ls := by
      rcases hBL : buildLayers k (nextLayer k l) with _ | ⟨L0, Ls⟩
      · exact absurd hBL (buildLayers_ne_nil k _)
      · exact ⟨L0, Ls, rfl⟩
    rw [hL] at hlast hfold ⊢
    refine ⟨r, ?_, ?_⟩
    · rw [List.getLast?_cons_cons]
      exact hlast
    · have hdrop : (l :: L0 :: Ls).dropLast = l :: (L0 :: Ls).dropLast := rfl
      rw [hdrop]
      simp only [proofLoop]
      rw [List.foldl_append, fold_sib_step k l i hi]
      exact hfold
  · rw [if_neg h]
    have h1 : l.length = 1 := by omega
    obtain ⟨x, hx⟩ : ∃ x, l = [x] := by
      match l, h1 with
      | [a], _ => exact ⟨a, rfl⟩
    subst hx
    have hi0 : i = 0 := by simp only [List.length_singleton] at hi; omega
    subst hi0
    exact ⟨x, rfl, rfl⟩
termination_by l.length
decreasing_by rw [nextLayer_length k]; omega

theorem position_eq_none_iff : ∀ (l : List Hash) (x : Hash), position l x = none ↔ x ∉ l
  | [], x => by simp [position]
  | a :: rest, x => by
    by_cases h : a = x
    · simp [position, h]
    · simp only [position, if_neg h, Option.map_eq_none', position_eq_none_iff rest x,
        List.mem_cons, not_or]
      constructor
      · intro hr
        exact ⟨fun he => h he.symm, hr⟩
      · intro hr
        exact hr.2

theorem position_mem_spec : ∀ (l : List Hash) (x : Hash), x ∈ l →
    ∃ i, position l x = some i ∧ i < l.length ∧ l.getD i 0 = x
  | [], x, hx => absurd hx (List.not_mem_nil x)
  | a :: rest, x, hx => by
    by_cases h : a = x
    · exact ⟨0, by simp [position, h], by simp, by simpa using h⟩
    · have hx' : x ∈ rest := by
        rcases List.mem_cons.1 hx with h1 | h1
        · exact absurd h1.symm h
        · exact h1
      obtain ⟨i, h1, h2, h3⟩ := position_mem_spec rest x hx'
      refine ⟨i + 1, ?_, ?_, ?_⟩
      · simp [position, h, h1]
      · simp only [List.length_cons]
        omega
      · simpa using h3

theorem mem_dedup : ∀ (l : List Hash) (x : Hash), x ∈ dedup l ↔ x ∈ l
  | [], _ => Iff.rfl
  | [_], _ => Iff.rfl
  | a :: b :: rest, x => by
    by_cases h : a = b
    · simp only [dedup, if_pos h, mem_dedup (b :: rest) x]
      subst h
      simp only [List.mem_cons]
      tauto
    · simp only [dedup, if_neg h, List.mem_cons, mem_dedup (b :: rest) x]

theorem dedup_sorted_lt : ∀ l : List Hash, l.Sorted (· ≤ ·) → (dedup l).Sorted (· < ·)
  | [], _ => by simp [dedup]
  | [_], _ => by simp [dedup]
  | a :: b :: rest, h => by
    have htail : (b :: rest).Sorted (· ≤ ·) := h.of_cons
    by_cases hab : a = b
    · simp only [dedup, if_pos hab]
      exact dedup_sorted_lt (b :: rest) htail
    · simp only [dedup, if_neg hab]
      refine List.Pairwise.cons ?_ (dedup_sorted_lt (b :: rest) htail)
      intro x hx
      rcases List.mem_cons.1 ((mem_dedup _ _).1 hx) with rfl | hxr
      · exact lt_of_le_of_ne (List.rel_of_sorted_cons h x (List.mem_cons_self _ _)) hab
      · have hbx : b ≤ x := List.rel_of_sorted_cons htail x hxr
        have hab' : a < b :=
          lt_of_le_of_ne (List.rel_of_sorted_cons h b (List.mem_cons_self _ _)) hab
        exact lt_of_lt_of_le hab' hbx

/-- Two strictly sorted lists with the same members are equal. -/
theorem sorted_lt_ext : ∀ (l1 l2 : List Hash), l1.Sorted (· < ·) → l2.Sorted (· < ·) →
    (∀ a, a ∈ l1 ↔ a ∈ l2) → l1 = l2
  | [], [], _, _, _ => rfl
  | [], b :: _, _, _, hm => by
    have := (hm b).2 (List.mem_cons_self _ _)
    simp at this
  | a :: _, [], _, _, hm => by
    have := (hm a).1 (List.mem_cons_self _ _)
    simp at this
  | a :: t1, b :: t2, h1, h2, hm => by
    have hab : a = b := by
      rcases List.mem_cons.1 ((hm a).1 (List.mem_cons_self _ _)) with h | h
      · exact h
      · rcases List.mem_cons.1 ((hm b).2 (List.mem_cons_self _ _)) with h' | h'
        · exact h'.symm
        · have hba : b < a := List.rel_of_sorted_cons h2 a h
          have hab2 : a < b := List.rel_of_sorted_cons h1 b h'
          exact absurd hab2 (Nat.lt_asymm hba)
    subst hab
    have hm' : ∀ x, x ∈ t1 ↔ x ∈ t2 := by
      intro x
      constructor
      · intro hx
        have hax : a < x := List.rel_of_sorted_cons h1 x hx
        rcases List.mem_cons.1 ((hm x).1 (List.mem_cons_of_mem a hx)) with h | h
        · subst h
          exact absurd hax (lt_irrefl _)
        · exact h
      · intro hx
        have hax : a < x := List.rel_of_sorted_cons h2 x hx
        rcases List.mem_cons.1 ((hm x).2 (List.mem_cons_of_mem a hx)) with h | h
        · subst h
          exact absurd hax (lt_irrefl _)
        · exact h
    rw [sorted_lt_ext t1 t2 h1.of_cons h2.of_cons hm']

theorem sortDedup_sorted_lt (l : List Hash) : (sortDedup l).Sorted (· < ·) :=
  dedup_sorted_lt _ (List.sorted_insertionSort _ l)

theorem mem_sortDedup (l : List Hash) (x : Hash) : x ∈ sortDedup l ↔ x ∈ l := by
  rw [sortDedup, mem_dedup, List.mem_insertionSort]

/-- `sort` followed by `dedup` depends only on which hashes occur in the
input list. -/
theorem sortDedup_ext (l1 l2 : List Hash) (hm : ∀ a, a ∈ l1 ↔ a ∈ l2) :
    sortDedup l1 = sortDedup l2 :=
  sorted_lt_ext _ _ (sortDedup_sorted_lt l1) (sortDedup_sorted_lt l2)
    (fun a => by rw [mem_sortDedup, mem_sortDedup]; exact hm a)

/-- The concrete stand-in hash function returns values below `2 ^ 256`,
i.e. 32-byte values. -/
theorem kc_lt (bs : List Byte) : kc bs < 2 ^ 256 := by
  rw [kc]
  suffices h : ∀ (l : List Byte) (a : Nat), a < 2 ^ 256 →
      List.foldl (fun a b => (a * 257 + b + 1) % (2 ^ 255 - 19)) a l < 2 ^ 256 from
    h bs 1 (by norm_num)
  intro l
  induction l with
  | nil =>
    intro a ha
    simpa using ha
  | cons b t ih =>
    intro a ha
    simp only [List.foldl_cons]
    refine ih _ (lt_trans (Nat.mod_lt _ (by norm_num)) (by norm_num))

/-! ### The numeric order of `Hash` agrees with byte-wise order on `toBE`

`H256` compares as a 32-byte array, lexicographically.  The following
lemmas justify modelling those comparisons by `Nat` comparisons: on values
below `2 ^ 256`, strict byte-wise lexicographic order of the 32-byte
big-endian encodings is exactly numeric `<`, and byte-wise equality is
numeric equality. -/

theorem toBE_length : ∀ (w n : Nat), (toBE w n).length = w
  | 0, _ => rfl
  | w + 1, n => by simp [toBE, toBE_length w n]

theorem toBE_mod : ∀ (w a : Nat), toBE w (a % 256 ^ w) = toBE w a
  | 0, _ => rfl
  | w + 1, a => by
    have hdvd : (256 : Nat) ^ w ∣ 256 ^ (w + 1) := pow_dvd_pow 256 (by omega)
    have h1 : a % 256 ^ (w + 1) / 256 ^ w % 256 = a / 256 ^ w % 256 := by
      rw [pow_succ, Nat.mod_mul_right_div_self, Nat.mod_mod_of_dvd _ dvd_rfl]
    have h2 : toBE w (a % 256 ^ (w + 1)) = toBE w a := by
      rw [← toBE_mod w (a % 256 ^ (w + 1)), Nat.mod_mod_of_dvd a hdvd, toBE_mod w a]
    simp only [toBE, h1, h2]

theorem lex_cons_iff {x y : Nat} {l1 l2 : List Nat} :
    List.Lex (· < ·) (x :: l1) (y :: l2) ↔ x < y ∨ (x = y ∧ List.Lex (· < ·) l1 l2) := by
  constructor
  · intro h
    cases h with
    | cons h => exact Or.inr ⟨rfl, h⟩
    | rel h => exact Or.inl h
  · intro h
    rcases h with h | ⟨rfl, h⟩
    · exact List.Lex.rel h
    · exact List.Lex.cons h

theorem lex_lt_irrefl : ∀ l : List Nat, ¬ List.Lex (· < ·) l l
  | [] => fun h => by cases h
  | a :: l => fun h => by
    cases h with
    | cons h => exact lex_lt_irrefl l h
    | rel h => exact absurd h (lt_irrefl a)

/-- Positional decomposition of `<` for numbers split as `high * P + low`. -/
theorem lex_split_lt (P x y a' b' : Nat) (ha : a' < P) (hb : b' < P) :
    x * P + a' < y * P + b' ↔ (x < y ∨ (x = y ∧ a' < b')) := by
  constructor
  · intro h
    rcases Nat.lt_trichotomy x y with hxy | hxy | hxy
    · exact Or.inl hxy
    · subst hxy
      exact Or.inr ⟨rfl, lt_of_add_lt_add_left h⟩
    · exfalso
      have h2 : (y + 1) * P ≤ x * P := Nat.mul_le_mul_right P hxy
      have h4 : y * P + b' < x * P + a' := by
        calc y * P + b' < y * P + P := Nat.add_lt_add_left hb _
        _ = (y + 1) * P := by ring
        _ ≤ x * P := h2
        _ ≤ x * P + a' := Nat.le_add_right _ _
      exact absurd h (not_lt.2 h4.le)
  · rintro (hxy | ⟨rfl, hab⟩)
    · have h1 : x * P + a' < (x + 1) * P := by
        have he : (x + 1) * P = x * P + P := by ring
        rw [he]
        exact Nat.add_lt_add_left ha _
      have h2 : (x + 1) * P ≤ y * P := Nat.mul_le_mul_right P hxy
      exact lt_of_lt_of_le h1 (le_trans h2 (Nat.le_add_right _ _))
    · exact Nat.add_lt_add_left hab _

/-- On values below `256 ^ w`, strict lexicographic order of the `w`-byte
big-endian encodings is numeric order. -/
theorem toBE_lt_iff : ∀ (w a b : Nat), a < 256 ^ w → b < 256 ^ w →
    (List.Lex (· < ·) (toBE w a) (toBE w b) ↔ a < b)
  | 0, a, b, ha, hb => by
    simp only [pow_zero, Nat.lt_one_iff] at ha hb
    subst ha
    subst hb
    exact iff_of_false (lex_lt_irrefl _) (lt_irrefl 0)
  | w + 1, a, b, ha, hb => by
    have hP : 0 < (256 : Nat) ^ w := Nat.pos_pow_of_pos w (by norm_num)
    have hda : a / 256 ^ w < 256 := by
      rw [Nat.div_lt_iff_lt_mul hP, ← pow_succ']
      exact ha
    have hdb : b / 256 ^ w < 256 := by
      rw [Nat.div_lt_iff_lt_mul hP, ← pow_succ']
      exact hb
    have hA : a / 256 ^ w * 256 ^ w + a % 256 ^ w = a := Nat.div_add_mod' a _
    have hB : b / 256 ^ w * 256 ^ w + b % 256 ^ w = b := Nat.div_add_mod' b _
    simp only [toBE]
    rw [Nat.mod_eq_of_lt hda, Nat.mod_eq_of_lt hdb, lex_cons_iff,
      show toBE w a = toBE w (a % 256 ^ w) from (toBE_mod w a).symm,
      show toBE w b = toBE w (b % 256 ^ w) from (toBE_mod w b).symm,
      toBE_lt_iff w (a % 256 ^ w) (b % 256 ^ w) (Nat.mod_lt _ hP) (Nat.mod_lt _ hP)]
    conv_rhs => rw [← hA, ← hB]
    exact (lex_split_lt (256 ^ w) (a / 256 ^ w) (b / 256 ^ w) (a % 256 ^ w) (b % 256 ^ w)
      (Nat.mod_lt _ hP) (Nat.mod_lt _ hP)).symm

theorem toBE_inj (w a b : Nat) (ha : a < 256 ^ w) (hb : b < 256 ^ w)
    (h : toBE w a = toBE w b) : a = b := by
  rcases Nat.lt_trichotomy a b with hab | hab | hab
  · have hx := (toBE_lt_iff w a b ha hb).2 hab
    rw [h] at hx
    exact absurd hx (lex_lt_irrefl _)
  · exact hab
  · have hx := (toBE_lt_iff w b a hb ha).2 hab
    rw [h] at hx
    exact absurd hx (lex_lt_irrefl _)

/-- On values below `256 ^ w`, non-strict byte-wise order (equal, or
strictly lexicographically smaller) of the `w`-byte big-endian encodings is
numeric `≤`: the order `H256` derives is faithfully modelled by `Nat`
order. -/
theorem toBE_le_iff (w a b : Nat) (ha : a < 256 ^ w) (hb : b < 256 ^ w) :
    (toBE w a = toBE w b ∨ List.Lex (· < ·) (toBE w a) (toBE w b)) ↔ a ≤ b := by
  constructor
  · rintro (h | h)
    · exact (toBE_inj w a b ha hb h).le
    · exact ((toBE_lt_iff w a b ha hb).1 h).le
  · intro h
    rcases eq_or_lt_of_le h with rfl | h
    · exact Or.inl rfl
    · exact Or.inr ((toBE_lt_iff w a b ha hb).2 h)

/-! ### Claim theorems -/

/-- C1: for every tree built from a non-empty collection of records and
every leaf hash present in the tree's canonical (sorted, deduplicated) leaf
set, proof extraction succeeds, a root exists, and verifying the leaf hash
with the extracted proof against that root returns `true`. -/
theorem C1_present_leaf_verifies (keccak256 : List Byte → Hash)
    (data : List (Nat × Nat)) (element : Hash)
    (_hne : data ≠ []) (hmem : element ∈ (new keccak256 data).elements) :
    (get_proof (new keccak256 data) element).isSome = true ∧
    (get_root (new keccak256 data)).isSome = true ∧
    verify_proof keccak256 (new keccak256 data) element
      ((get_proof (new keccak256 data) element).getD [])
      ((get_root (new keccak256 data)).getD 0) = true := by
  obtain ⟨i, hpos, hlen, hget⟩ := position_mem_spec _ element hmem
  have hlayers : (new keccak256 data).layers
      = buildLayers keccak256 (new keccak256 data).elements := rfl
  have hproof : get_proof (new keccak256 data) element
      = some (proofLoop (new keccak256 data).layers.dropLast i) := by
    rw [get_proof, hpos, Option.map_some']
  obtain ⟨r, hlast, hfold⟩ := buildLayers_spine keccak256 (new keccak256 data).elements i hlen
  have hroot : get_root (new keccak256 data) = some r := by
    rw [get_root, hlayers, hlast, Option.some_bind, List.head?_cons]
  refine ⟨by rw [hproof]; rfl, by rw [hroot]; rfl, ?_⟩
  rw [hproof, hroot]
  simp only [Option.getD_some]
  rw [verify_proof, verify_fold_eq, ← hget, hlayers]
  rw [hfold]
  exact beq_self_eq_true r

set_option maxRecDepth 40000 in
/-- Witness for C1 at a concrete two-record tree and its first leaf. -/
theorem C1_present_leaf_verifies_witness :
    (([((1 : Nat), (2 : Nat)), (3, 4)] : List (Nat × Nat)) ≠ []
      ∧ hash_node kc 0 (1, 2) ∈ (new kc [(1, 2), (3, 4)]).elements)
    ∧ ((get_proof (new kc [(1, 2), (3, 4)]) (hash_node kc 0 (1, 2))).isSome = true ∧
      (get_root (new kc [(1, 2), (3, 4)])).isSome = true ∧
      verify_proof kc (new kc [(1, 2), (3, 4)]) (hash_node kc 0 (1, 2))
        ((get_proof (new kc [(1, 2), (3, 4)]) (hash_node kc 0 (1, 2))).getD [])
        ((get_root (new kc [(1, 2), (3, 4)])).getD 0) = true) :=
  ⟨⟨by decide, by decide⟩,
    C1_present_leaf_verifies kc [(1, 2), (3, 4)] (hash_node kc 0 (1, 2))
      (by decide) (by decide)⟩

/-- C6: proof extraction returns `none` exactly when the requested leaf hash
is not in the canonical leaf set (and hence `some` proof when it is). -/
theorem C6_proof_absent_iff_not_mem (keccak256 : List Byte → Hash)
    (data : List (Nat × Nat)) (element : Hash) :
    get_proof (new keccak256 data) element = none
      ↔ element ∉ (new keccak256 data).elements := by
  rw [get_proof, Option.map_eq_none']
  exact position_eq_none_iff _ _

/-- C7: a tree built from exactly one record has the proof `[]` for its
single leaf hash, its root is that leaf hash, and verifying the leaf with an
empty proof against the root returns `true`. -/
theorem C7_single_record (keccak256 : List Byte → Hash) (a m : Nat) :
    get_proof (new keccak256 [(a, m)]) (hash_node keccak256 0 (a, m)) = some [] ∧
    get_root (new keccak256 [(a, m)]) = some (hash_node keccak256 0 (a, m)) ∧
    verify_proof keccak256 (new keccak256 [(a, m)]) (hash_node keccak256 0 (a, m)) []
      ((get_root (new keccak256 [(a, m)])).getD 0) = true := by
  have helems : (new keccak256 [(a, m)]).elements = [hash_node keccak256 0 (a, m)] := rfl
  have hlayers : (new keccak256 [(a, m)]).layers = [[hash_node keccak256 0 (a, m)]] := rfl
  have hroot : get_root (new keccak256 [(a, m)]) = some (hash_node keccak256 0 (a, m)) := by
    rw [get_root, hlayers]
    rfl
  refine ⟨?_, hroot, ?_⟩
  · rw [get_proof, helems, hlayers]
    simp [position, proofLoop]
  · simp [verify_proof, hroot]

/-- C9: verification reads nothing from the tree it is called on: any two
trees (built from any two record collections, empty ones included) give the
same verification result on the same leaf, proof and claimed root. -/
theorem C9_verify_ignores_tree (keccak256 : List Byte → Hash)
    (d1 d2 : List (Nat × Nat)) (element : Hash) (proof : List Hash) (root : Hash) :
    verify_proof keccak256 (new keccak256 d1) element proof root
      = verify_proof keccak256 (new keccak256 d2) element proof root := rfl

/-- C10: with an empty proof, verification succeeds exactly when the leaf
hash is byte-for-byte the claimed root. -/
theorem C10_empty_proof_verifies_iff (keccak256 : List Byte → Hash)
    (t : MerkleTree) (element root : Hash) :
    verify_proof keccak256 t element [] root = true ↔ element = root := by
  simp [verify_proof]

set_option maxRecDepth 40000 in
/-- C2 counterexample: swapping the two records of a two-record collection
changes the root, because each record is hashed together with its positional
index. -/
theorem C2_counterexample :
    ¬ (get_root (new kc [(1, 2), (3, 4)]) = get_root (new kc [(3, 4), (1, 2)])) := by
  decide

/-- C2 (amended): the root depends only on the multiset of derived leaf
hashes: whenever two input collections induce leaf-hash lists that are
permutations of each other, the roots coincide.  Merely permuting the
records does not qualify, because each record's leaf hash binds its
positional index in the input order. -/
theorem C2_amended_root_perm (keccak256 : List Byte → Hash)
    (d1 d2 : List (Nat × Nat))
    (hp : (leafHashes keccak256 d1).Perm (leafHashes keccak256 d2)) :
    get_root (new keccak256 d1) = get_root (new keccak256 d2) := by
  have he : (new keccak256 d1).elements = (new keccak256 d2).elements :=
    sortDedup_ext _ _ fun a => hp.mem_iff
  have hl : (new keccak256 d1).layers = (new keccak256 d2).layers := by
    show buildLayers keccak256 (new keccak256 d1).elements
      = buildLayers keccak256 (new keccak256 d2).elements
    rw [he]
  unfold get_root
  rw [hl]

/-- Witness for the amended C2 with the permutation discharged by
reflexivity (a non-trivial permutation of leaf hashes would require a
collision of the hash function). -/
theorem C2_amended_root_perm_witness :
    get_root (new kc [(1, 2), (3, 4)]) = get_root (new kc [(1, 2), (3, 4)]) :=
  C2_amended_root_perm kc [(1, 2), (3, 4)] [(1, 2), (3, 4)] (List.Perm.refl _)

set_option maxRecDepth 40000 in
/-- C3 counterexample: appending an exact repeat of the single record
changes the root: the repeated record is hashed with a fresh index, so its
leaf hash does not collapse under dedup. -/
theorem C3_counterexample :
    ¬ (get_root (new kc [(1, 2)]) = get_root (new kc [(1, 2), (1, 2)])) := by
  decide

/-- C3 (amended): deduplication collapses duplicate leaf hashes, not
duplicate records: appending to the derived leaf-hash list a hash that is
already present yields the same root as the original tree.  Appending a
duplicate record is not such an operation, because the appended copy is
hashed with a new positional index. -/
theorem C3_amended_dup_leafHash (keccak256 : List Byte → Hash)
    (data : List (Nat × Nat)) (x : Hash) (hx : x ∈ leafHashes keccak256 data) :
    rootOfLeaves keccak256 (leafHashes keccak256 data ++ [x])
      = get_root (new keccak256 data) := by
  have he : sortDedup (leafHashes keccak256 data ++ [x])
      = sortDedup (leafHashes keccak256 data) := by
    refine sortDedup_ext _ _ fun a => ⟨fun h => ?_, fun h => List.mem_append_left _ h⟩
    rcases List.mem_append.1 h with h | h
    · exact h
    · rw [List.mem_singleton] at h
      subst h
      exact hx
  show (buildLayers keccak256 (sortDedup (leafHashes keccak256 data ++ [x]))).getLast?.bind
      List.head? = _
  rw [he]
  rfl

set_option maxRecDepth 40000 in
/-- Witness for the amended C3: appending the already-present first leaf
hash to the leaf-hash list of a two-record tree leaves the root unchanged. -/
theorem C3_amended_dup_leafHash_witness :
    rootOfLeaves kc (leafHashes kc [(1, 2), (3, 4)] ++ [hash_node kc 0 (1, 2)])
      = get_root (new kc [(1, 2), (3, 4)]) :=
  C3_amended_dup_leafHash kc [(1, 2), (3, 4)] (hash_node kc 0 (1, 2)) (by decide)

/-- C4 counterexample: the layer stack of the tree built from zero records
has length 1 (it holds one empty layer), not length 0. -/
theorem C4_counterexample : ¬ ((new kc []).layers.length = 0) := by decide

/-- C4 (amended): building from zero records succeeds, yields an empty leaf
set and a layer stack of length 1 holding a single empty layer (not a layer
stack of length 0), and the root query reports absence. -/
theorem C4_empty_tree (keccak256 : List Byte → Hash) :
    (new keccak256 []).elements = [] ∧
    (new keccak256 []).layers = [[]] ∧
    (new keccak256 []).layers.length = 1 ∧
    get_root (new keccak256 []) = none :=
  ⟨rfl, rfl, rfl, rfl⟩

/-- C5: the leaf hash is keccak256 applied to the 32-byte big-endian index,
followed by the 20 raw account bytes, followed by the 32-byte big-endian
amount, and (for a hash function producing 32-byte values) the output is a
32-byte value. -/
theorem C5_leaf_encoding (keccak256 : List Byte → Hash)
    (hk : ∀ bs, keccak256 bs < 2 ^ 256) (index account amount : Nat) :
    hash_node keccak256 index (account, amount)
      = keccak256 (toBE 32 index ++ toBE 20 account ++ toBE 32 amount) ∧
    hash_node keccak256 index (account, amount) < 2 ^ 256 := by
  constructor
  · simp [hash_node, List.append_assoc]
  · exact hk _

/-- Witness for C5 at a concrete record, with the 32-byte-output hypothesis
discharged by `kc_lt`. -/
theorem C5_leaf_encoding_witness :
    (∀ bs, kc bs < 2 ^ 256) ∧
    (hash_node kc 3 (5, 7) = kc (toBE 32 3 ++ toBE 20 5 ++ toBE 32 7) ∧
      hash_node kc 3 (5, 7) < 2 ^ 256) :=
  ⟨kc_lt, C5_leaf_encoding kc kc_lt 3 5 7⟩

/-- C8: one layer-building step maps a layer of length `n ≥ 1` to a layer of
length `⌈n / 2⌉`; the element at position `j` of the new layer is keccak256
of the byte-wise smaller of the pair at `2j, 2j + 1` followed by the larger
when the pair is full, and is the unpaired element at `2j` itself (promoted,
not hashed with itself and not dropped) when `2j` is the odd last index. -/
theorem C8_next_layer (keccak256 : List Byte → Hash) (l : List Hash) (j : Nat)
    (hj : 2 * j < l.length) :
    (nextLayer keccak256 l).length = (l.length + 1) / 2 ∧
    (nextLayer keccak256 l).getD j 0 =
      if 2 * j + 1 < l.length
      then keccak256 (toBE 32 (min (l.getD (2 * j) 0) (l.getD (2 * j + 1) 0))
        ++ toBE 32 (max (l.getD (2 * j) 0) (l.getD (2 * j + 1) 0)))
      else l.getD (2 * j) 0 := by
  refine ⟨nextLayer_length keccak256 l, ?_⟩
  rw [nextLayer_getD keccak256 l j hj]
  by_cases hs : 2 * j + 1 < l.length
  · rw [if_pos hs, if_pos hs, hash_pair, min_def, max_def]
  · rw [if_neg hs, if_neg hs]

/-- Witness for C8 on a concrete three-element layer at the promoted odd
position. -/
theorem C8_next_layer_witness :
    2 * 1 < ([5, 3, 7] : List Hash).length ∧
    ((nextLayer kc [5, 3, 7]).length = (([5, 3, 7] : List Hash).length + 1) / 2 ∧
    (nextLayer kc [5, 3, 7]).getD 1 0 =
      if 2 * 1 + 1 < ([5, 3, 7] : List Hash).length
      then kc (toBE 32 (min (([5, 3, 7] : List Hash).getD (2 * 1) 0)
          (([5, 3, 7] : List Hash).getD (2 * 1 + 1) 0))
        ++ toBE 32 (max (([5, 3, 7] : List Hash).getD (2 * 1) 0)
          (([5, 3, 7] : List Hash).getD (2 * 1 + 1) 0)))
      else ([5, 3, 7] : List Hash).getD (2 * 1) 0) :=
  ⟨by decide, C8_next_layer kc [5, 3, 7] 1 (by decide)⟩

end OzMerkle
